import Mathlib

/-!
Verification development for the conjecture-testing engine of
`automated-conjecture-factory`.

The engine lives in `src/core/conjecture_engine.py` (polynomial and linear
recurrence testers), `src/core/rational_conjecture.py` (rational function
tester); the exponential tester is imported by `src/main_analyzer.py` from
`core.conjecture_engine` but its definition is absent from the sources, so it
is modelled from the specification (§4.3).

Modelling conventions:
* Sequence terms are arbitrary-precision integers (`ℤ`), exactly as Python
  ints.
* The approximate floating-point fitting routines (`np.polyfit`,
  `scipy.linalg.solve`, `np.linalg.lstsq`) are modelled as parameters
  ("oracles") of the testers, so that every structural theorem holds for an
  arbitrary fitting routine; exact rational-arithmetic instantiations
  (least-squares via normal equations and Cramer's rule) stand in for the
  floating-point routines on the concrete test vectors, where the fits are
  exact and well inside the `1e-9` tolerance, so the rounded integer
  candidates coincide.
* Python `round` / `np.round` are half-even while Mathlib's `round` is
  half-up; the two differ only at exact half-integers, which are rejected by
  every `1e-9` near-integer gate before rounding is used, so the difference
  is unobservable in the engine.
* `int(len*0.8)` is modelled as `4 * len / 5` (exact for every list length a
  Python process can hold).
* NumPy/SciPy reject integers outside the native 64-bit range when building
  numeric arrays (the exact exception and boundary vary with the NumPy
  version; every value of magnitude `≥ 2^64` is rejected by all of them).
  The polynomial and recurrence testers catch only `LinAlgError`, so this
  rejection escapes as an exception; it is modelled as `Except.error`.
  The rational tester pre-checks `np.int64` representability and returns
  `failed` instead.
-/

/-- `1e-9`, the shared near-integer rounding tolerance and the rational
verification tolerance. -/
def tol9 : ℚ := 1 / 10 ^ 9

/-- `1e-5`, the least-squares residual gate of the rational tester. -/
def tol5 : ℚ := 1 / 10 ^ 5

/-- `abs(c - round(c)) < 1e-9`: the shared near-integer acceptance rule. -/
def isNearInt (c : ℚ) : Bool := decide (|c - (round c : ℚ)| < tol9)

/-- A Python int is representable as `np.int64`. -/
def int64Repr (v : ℤ) : Bool := decide (-(2 ^ 63) ≤ v ∧ v < 2 ^ 63)

/-- First hit of an `Option`-valued function along a list: the shape of every
ascending candidate search in the engine (`for deg in range(...): ...
return` on first success). -/
def firstSome (f : α → Option β) : List α → Option β
  | [] => none
  | a :: l =>
    match f a with
    | some r => some r
    | none => firstSome f l

theorem firstSome_eq_none {f : α → Option β} {l : List α}
    (h : firstSome f l = none) : ∀ a ∈ l, f a = none := by
  induction l with
  | nil => intro a ha; cases ha
  | cons b t ih =>
    intro a ha
    unfold firstSome at h
    cases hb : f b with
    | some r0 => simp [hb] at h
    | none =>
      simp only [hb] at h
      rcases List.mem_cons.mp ha with rfl | hat
      · exact hb
      · exact ih h a hat

theorem firstSome_eq_some {f : α → Option β} {l : List α} {r : β}
    (h : firstSome f l = some r) : ∃ a ∈ l, f a = some r := by
  induction l with
  | nil => cases h
  | cons b t ih =>
    unfold firstSome at h
    cases hb : f b with
    | some r0 =>
      simp only [hb, Option.some.injEq] at h
      exact ⟨b, List.mem_cons_self b t, by rw [hb, h]⟩
    | none =>
      simp only [hb] at h
      obtain ⟨a, hat, ha⟩ := ih h
      exact ⟨a, List.mem_cons_of_mem b hat, ha⟩

/-- An ascending first-hit search never skips over a candidate: when the
result records which candidate produced it, every candidate strictly earlier
in the (sorted) candidate list was rejected. -/
theorem firstSome_earlier_none {f : α → Option β} {l : List α} {r : β}
    {lt : α → α → Prop} (tagOf : β → α)
    (hasymm : ∀ x y, lt x y → ¬ lt y x)
    (htag : ∀ a r', f a = some r' → tagOf r' = a)
    (hsort : l.Pairwise lt)
    (h : firstSome f l = some r) :
    ∀ a ∈ l, lt a (tagOf r) → f a = none := by
  induction l with
  | nil => intro a ha; cases ha
  | cons b t ih =>
    intro a ha hlt
    unfold firstSome at h
    cases hb : f b with
    | some r0 =>
      simp only [hb, Option.some.injEq] at h
      subst h
      have htb : tagOf r0 = b := htag b r0 hb
      rw [htb] at hlt
      rcases List.mem_cons.mp ha with rfl | hat
      · exact absurd hlt (hasymm a a hlt)
      · exact absurd hlt (hasymm b a ((List.pairwise_cons.mp hsort).1 a hat))
    | none =>
      rw [hb] at h
      rcases List.mem_cons.mp ha with rfl | hat
      · exact hb
      · exact ih (List.pairwise_cons.mp hsort).2 h a hat hlt

/-! ## Exact linear solving (model of the floating-point solvers)

`scipy.linalg.solve` / the normal-equations route of `np.polyfit` are
modelled by the exact solution of the corresponding linear system over `ℚ`,
computed with Cramer's rule; a singular matrix is mapped to `none`
(`LinAlgError` in the source, which every tester treats as "skip this
candidate"). -/

/-- Laplace expansion along the first row; the fuel argument (the number of
rows) makes the recursion structural. -/
def detAux : ℕ → List (List ℚ) → ℚ
  | 0, _ => 1
  | _ + 1, [] => 1
  | fuel + 1, r :: rs =>
    ((List.range r.length).map fun j =>
      (-1 : ℚ) ^ j * r.getD j 0 * detAux fuel (rs.map fun row => row.eraseIdx j)).sum

/-- Determinant of a square rational matrix given as a list of rows. -/
def det (m : List (List ℚ)) : ℚ := detAux m.length m

/-- Replace column `j` of `m` by `b`. -/
def replaceCol (m : List (List ℚ)) (j : ℕ) (b : List ℚ) : List (List ℚ) :=
  (m.zip b).map fun rb => rb.1.set j rb.2

/-- Exact solution of `m · x = b` by Cramer's rule; `none` on a singular
matrix. -/
def solveCramer (m : List (List ℚ)) (b : List ℚ) : Option (List ℚ) :=
  if det m = 0 then none
  else some ((List.range b.length).map fun j => det (replaceCol m j b) / det m)

/-! ## Polynomial conjecture tester

Model of `test_polynomial_conjecture` (src/core/conjecture_engine.py,
lines 38-98).  `CONFIG` falls back to the defaults hard-coded in
`load_config`: `max_poly_degree_to_test = 10`, `verification_ratio = 0.8`. -/

/-- Default `max_poly_degree_to_test`. -/
def maxPolyDegree : ℕ := 10

/-- The ascending degree search range `range(1, max_degree + 1)`. -/
def degreeRange : List ℕ := (List.range maxPolyDegree).map (· + 1)

/-- `fit_len = int(len(sequence_data) * verification_ratio)` with the default
ratio `0.8`. -/
def fitLen (seq : List ℤ) : ℕ := 4 * seq.length / 5

/-- `x_fit = np.arange(1, fit_len + 1)`, as exact rationals. -/
def xFit (m : ℕ) : List ℚ := (List.range m).map fun i => ((i + 1 : ℕ) : ℚ)

/-- `y_fit = np.array(sequence_data[:fit_len])`, as exact rationals. -/
def yFit (seq : List ℤ) (m : ℕ) : List ℚ := (seq.take m).map Int.cast

/-- A polynomial fitting routine: given `x_fit`, `y_fit` and a degree it
returns the fitted coefficients (highest degree first) or `none`
(`LinAlgError`).  `np.polyfit` is one such routine; theorems quantified over
`fit` hold whatever the floating-point fit returns. -/
def PolyFit : Type := List ℚ → List ℚ → ℕ → Option (List ℚ)

/-- Σ xᵢᵉ¹·xᵢᵉ², one entry of the normal-equations matrix. -/
def dotSum (xs ys : List ℚ) : ℚ := (List.zipWith (· * ·) xs ys).sum

/-- The column of `e`-th powers of the sample points. -/
def colPow (xs : List ℚ) (e : ℕ) : List ℚ := xs.map (· ^ e)

/-- Normal-equations matrix `Xᵀ·X` of the degree-`d` Vandermonde design
matrix (columns ordered highest power first, as in `np.polyfit`). -/
def normalMatrix (xs : List ℚ) (d : ℕ) : List (List ℚ) :=
  (List.range (d + 1)).map fun j =>
    (List.range (d + 1)).map fun k => dotSum (colPow xs (d - j)) (colPow xs (d - k))

/-- Normal-equations right-hand side `Xᵀ·y`. -/
def normalRhs (xs ys : List ℚ) (d : ℕ) : List ℚ :=
  (List.range (d + 1)).map fun j => dotSum (colPow xs (d - j)) ys

/-- Exact-arithmetic model of `np.polyfit`: the least-squares solution via
the normal equations, solved by Cramer's rule. -/
def polyfitQ : PolyFit := fun xs ys d =>
  solveCramer (normalMatrix xs d) (normalRhs xs ys d)

/-- `sum(c * n**(degree - i) for i, c in enumerate(rounded_coeffs))`
evaluated at an integer, in exact integer arithmetic (the sympy
verification). -/
def polyEvalZ (d : ℕ) (cs : List ℤ) (x : ℤ) : ℤ :=
  (cs.enum.map fun ic => ic.2 * x ^ (d - ic.1)).sum

/-- The full-sequence verification loop
`for i, true_val in enumerate(sequence_data, 1): ...`, starting at index
`i`. -/
def polyVerifyFrom (d : ℕ) (cs : List ℤ) : ℕ → List ℤ → Bool
  | _, [] => true
  | i, v :: rest => (polyEvalZ d cs (i : ℤ) == v) && polyVerifyFrom d cs (i + 1) rest

/-- Outcome of the polynomial tester: the returned dict is `failed`, or
`verified` carrying the rounded integer coefficients (highest degree first)
that generate `formula_latex` and the degree reported in `details`. -/
inductive PolyOut
  | failed
  | verified (coeffs : List ℤ) (degree : ℕ)
deriving DecidableEq, Repr

/-- `rounded_coeffs = [int(round(c)) for c in coeffs]`. -/
def roundedCoeffs (cs : List ℚ) : List ℤ := cs.map fun c => round c

/-- The body of one iteration of the degree loop: skip when
`fit_len <= degree`, fit, reject non-near-integer coefficients, round, and
verify against the entire sequence. -/
def polyStep (fit : PolyFit) (seq : List ℤ) (m : ℕ) (d : ℕ) : Option PolyOut :=
  if m ≤ d then none
  else
    match fit (xFit m) (yFit seq m) d with
    | none => none
    | some cs =>
      if cs.all isNearInt then
        if polyVerifyFrom d (roundedCoeffs cs) 1 seq then
          some (.verified (roundedCoeffs cs) d)
        else none
      else none

/-- `test_polynomial_conjecture`, parameterized by the fitting routine.
The `Except` layer records the uncaught exception NumPy raises when a value
of `sequence_data[:fit_len]` is not representable in the native array
integer type (only `LinAlgError` is caught in the source). -/
def testPolynomialWith (fit : PolyFit) (seq : List ℤ) : Except String PolyOut :=
  if fitLen seq < 2 then .ok .failed
  else if (seq.take (fitLen seq)).all int64Repr then
    match firstSome (polyStep fit seq (fitLen seq)) degreeRange with
    | some r => .ok r
    | none => .ok .failed
  else .error "OverflowError: int too large to convert"

/-- `test_polynomial_conjecture` with the engine's actual fitting routine
modelled exactly. -/
def test_polynomial_conjecture (seq : List ℤ) : Except String PolyOut :=
  testPolynomialWith polyfitQ seq

/-- The degree a verified polynomial result reports. -/
def polyDegOf : PolyOut → ℕ
  | .failed => 0
  | .verified _ d => d

/-! ## Linear recurrence conjecture tester

Model of `test_linear_recurrence_conjecture` (src/core/conjecture_engine.py,
lines 101-174), with the default bound `max_recurrence_depth_to_test = 10`. -/

/-- Default `max_recurrence_depth_to_test`. -/
def maxRecurrenceDepth : ℕ := 10

/-- The ascending depth search range `range(1, max_depth + 1)`. -/
def depthRange : List ℕ := (List.range maxRecurrenceDepth).map (· + 1)

/-- A solver for the exact `k×k` window system: `scipy.linalg.solve`.
Returns `none` on `LinAlgError` or a non-finite solution (the
`np.isfinite` guard). -/
def RecSolve : Type := List (List ℤ) → List ℤ → Option (List ℚ)

/-- Matrix `A`: rows `list(reversed(sequence_data[i-k:i]))` for
`i in range(k, 2*k)`. -/
def recMatrix (seq : List ℤ) (k : ℕ) : List (List ℤ) :=
  (List.range k).map fun t => ((seq.drop t).take k).reverse

/-- Vector `b`: entries `sequence_data[i]` for `i in range(k, 2*k)`. -/
def recRhs (seq : List ℤ) (k : ℕ) : List ℤ :=
  (List.range k).map fun t => seq.getD (k + t) 0

/-- `scipy.linalg.solve` modelled as the exact rational solution of the
window system (Cramer), `none` on a singular matrix. -/
def recSolveQ : RecSolve := fun a b =>
  solveCramer (a.map fun row => row.map fun v => (v : ℚ))
    (b.map fun v => (v : ℚ))

/-- `sum(c * sequence_data[i-j-1] for j, c in enumerate(rounded_coeffs))`,
the exact integer prediction of term `i` (0-based). -/
def recPredict (cs : List ℤ) (seq : List ℤ) (i : ℕ) : ℤ :=
  (cs.enum.map fun jc => jc.2 * seq.getD (i - jc.1 - 1) 0).sum

/-- The verification loop `for i in range(k, len(sequence_data))`, walked
with explicit fuel `len - i`; `int(round(predicted_val))` is the identity
here because the prediction is exact integer arithmetic. -/
def recVerifyAux (cs seq : List ℤ) : ℕ → ℕ → Bool
  | _, 0 => true
  | i, fuel + 1 => (recPredict cs seq i == seq.getD i 0) && recVerifyAux cs seq (i + 1) fuel

/-- Verify the recurrence for every index from `k` (0-based) to the end. -/
def recVerify (cs seq : List ℤ) (k : ℕ) : Bool :=
  recVerifyAux cs seq k (seq.length - k)

/-- Outcome of the recurrence tester: `failed`, or `verified` with the
rounded integer coefficients `c₁..c_k` and the depth `k` reported in
`details`. -/
inductive RecOut
  | failed
  | verified (coeffs : List ℤ) (depth : ℕ)
deriving DecidableEq, Repr

/-- One iteration of the depth loop.  `.ok none` means "continue"
(insufficient length, `LinAlgError`, non-finite or non-near-integer
coefficients, or verification mismatch); `.error` is the uncaught exception
NumPy/SciPy raise when a window value is not representable in the native
array integer type. -/
def recStep (solver : RecSolve) (seq : List ℤ) (k : ℕ) :
    Except String (Option RecOut) :=
  if seq.length < 2 * k then .ok none
  else if (seq.take (2 * k)).all int64Repr then
    match solver (recMatrix seq k) (recRhs seq k) with
    | none => .ok none
    | some cs =>
      if cs.all isNearInt then
        if recVerify (roundedCoeffs cs) seq k then
          .ok (some (.verified (roundedCoeffs cs) k))
        else .ok none
      else .ok none
  else .error "array conversion overflow"

/-- The depth loop: first verified depth wins; an exception aborts the
whole call. -/
def recSearch (solver : RecSolve) (seq : List ℤ) : List ℕ → Except String RecOut
  | [] => .ok .failed
  | k :: ks =>
    match recStep solver seq k with
    | .error e => .error e
    | .ok (some r) => .ok r
    | .ok none => recSearch solver seq ks

/-- `test_linear_recurrence_conjecture`, parameterized by the window
solver. -/
def testRecurrenceWith (solver : RecSolve) (seq : List ℤ) : Except String RecOut :=
  recSearch solver seq depthRange

/-- `test_linear_recurrence_conjecture` with the solver modelled exactly. -/
def test_linear_recurrence_conjecture (seq : List ℤ) : Except String RecOut :=
  testRecurrenceWith recSolveQ seq

/-! ## Exponential conjecture tester (modelled from the spec)

`test_exponential_conjecture` is imported by `src/main_analyzer.py`
(lines 14-18) from `core.conjecture_engine`, but its definition is missing
from the sources; the definitions below are modelled from §4.3 of the
specification. -/

/-- Modelled from the spec: the iterative nonlinear solver (seeded at
`(A,B,C) = (1,2,0)`) for the 3-equation system `A·Bⁱ + C = a(i)`,
`i = 1,2,3`, of the missing `test_exponential_conjecture`.  Subtracting
consecutive equations gives `A·B·(B−1) = a₂−a₁` and `A·B²·(B−1) = a₃−a₂`,
so a nondegenerate solution is unique and the solver is modelled as
converging exactly to it; when the differences are degenerate (`a₂ = a₁`,
`a₃ = a₂`, or equal differences, forcing `A = 0` or `B ∈ {0,1}`) the system
has no isolated root and the solver is modelled as not converging. -/
def solveExpSystem (a1 a2 a3 : ℤ) : Option (ℚ × ℚ × ℚ) :=
  let d1 : ℚ := ((a2 - a1 : ℤ) : ℚ)
  let d2 : ℚ := ((a3 - a2 : ℤ) : ℚ)
  if d1 = 0 ∨ d2 = 0 ∨ d2 = d1 then none
  else
    let b := d2 / d1
    let a := d1 / (b * (b - 1))
    some (a, b, (a1 : ℚ) - a * b)

/-- Exact verification `A·Bⁱ + C = a(i)` for every term, by integer
exponentiation, starting at index `i`. -/
def expVerifyFrom (a b c : ℤ) : ℕ → List ℤ → Bool
  | _, [] => true
  | i, v :: rest => (a * b ^ i + c == v) && expVerifyFrom a b c (i + 1) rest

/-- Outcome of the exponential tester. -/
inductive ExpOut
  | failed
  | verified (a b c : ℤ)
deriving DecidableEq, Repr

/-- Modelled from the spec (§4.3): the missing `test_exponential_conjecture`.
Requires `n ≥ 5`; solves the 3-equation nonlinear system from the first
three terms; fails on non-convergence; rejects coefficients not within
`1e-9` of integers and the degenerate solutions `B = 1` and `A = 0`;
verifies every term with exact integer exponentiation. -/
def test_exponential_conjecture (seq : List ℤ) : ExpOut :=
  if seq.length < 5 then .failed
  else
    match solveExpSystem (seq.getD 0 0) (seq.getD 1 0) (seq.getD 2 0) with
    | none => .failed
    | some abc =>
      if isNearInt abc.1 && isNearInt abc.2.1 && isNearInt abc.2.2 then
        if round abc.2.1 == (1 : ℤ) || round abc.1 == (0 : ℤ) then .failed
        else if expVerifyFrom (round abc.1) (round abc.2.1) (round abc.2.2) 1 seq then
          .verified (round abc.1) (round abc.2.1) (round abc.2.2)
        else .failed
      else .failed

/-! ## Rational function conjecture tester

Model of `test_rational_conjecture` (src/core/rational_conjecture.py,
lines 8-107). -/

/-- `[t-1, ..., 1, 0]`: `reversed(range(t))`. -/
def revRange (t : ℕ) : List ℕ := (List.range t).reverse

/-- One row of the least-squares system:
`[n**k for k in reversed(range(p_deg + 1))]` followed by
`[-an * n**k for k in reversed(range(q_deg))]` (the constant denominator
coefficient `q_0` is fixed to `1` and moved to the right-hand side). -/
def ratRow (p q : ℕ) (nv an : ℚ) : List ℚ :=
  (revRange (p + 1)).map (fun k => nv ^ k) ++
    (revRange q).map (fun k => -an * nv ^ k)

/-- The matrix `M` over the first `fitPts` sample points (`n = i + 1`). -/
def ratM (seq : List ℤ) (p q fitPts : ℕ) : List (List ℚ) :=
  (List.range fitPts).map fun (i : ℕ) => ratRow p q ((i : ℚ) + 1) ((seq.getD i 0 : ℤ) : ℚ)

/-- The right-hand side `b`: the terms `a(n)` themselves. -/
def ratRhs (seq : List ℤ) (fitPts : ℕ) : List ℚ :=
  (List.range fitPts).map fun i => ((seq.getD i 0 : ℤ) : ℚ)

/-- A least-squares routine: `np.linalg.lstsq`.  Returns the fitted
coefficients and, when the reported residual array is nonempty, the residual
(sum of squared residuals); `none` on `LinAlgError`. -/
def RatFit : Type := List (List ℚ) → List ℚ → Option (List ℚ × Option ℚ)

/-- `P(n) = sum(c * n**k for c, k in zip(coeffs, reversed(range(deg + 1))))`
evaluated exactly over `ℚ` (the sympy verification); `zip` truncates like
Python's. -/
def polyEvalPairs (cs : List ℤ) (deg : ℕ) (x : ℚ) : ℚ :=
  ((cs.zip (revRange (deg + 1))).map fun ck => (ck.1 : ℚ) * x ^ ck.2).sum

/-- The final verification loop: walk the sequence from index `i`, requiring
a nonzero denominator and `abs(P(i)/Q(i) - a(i)) <= 1e-9` at every index. -/
def ratVerifyFrom (pC qC : List ℤ) (p q : ℕ) : ℕ → List ℤ → Bool
  | _, [] => true
  | i, v :: rest =>
    if polyEvalPairs qC q (i : ℚ) = 0 then false
    else if tol9 < |polyEvalPairs pC p (i : ℚ) / polyEvalPairs qC q (i : ℚ) - (v : ℚ)|
      then false
    else ratVerifyFrom pC qC p q (i + 1) rest

/-- Outcome of the rational tester: `failed`, or `verified` with the integer
numerator and denominator coefficients (highest power first, the fixed
`q_0 = 1` appended) and the degree pair reported in `details`. -/
inductive RatOut
  | failed
  | verified (pC qC : List ℤ) (pDeg qDeg : ℕ)
deriving DecidableEq, Repr

/-- `p_coeffs`: the first `p_deg + 1` rounded coefficients. -/
def ratPCoeffs (rcs : List ℤ) (p : ℕ) : List ℤ := rcs.take (p + 1)

/-- `q_coeffs`: the remaining rounded coefficients with the fixed `q_0 = 1`
appended. -/
def ratQCoeffs (rcs : List ℤ) (p : ℕ) : List ℤ := rcs.drop (p + 1) ++ [1]

/-- `fit_points = min(len(sequence_data), num_coeffs + 2)`. -/
def ratFitPts (seq : List ℤ) (p q : ℕ) : ℕ := min seq.length (p + q + 4)

/-- The body of one `(p_deg, q_deg)` iteration: length gate, least-squares
fit over `min(len, p+q+4)` points, residual gate `1e-5`, near-integer gate
`1e-9`, rounding, the (vacuous) `Q == 0` gate, and full verification. -/
def ratStep (fit : RatFit) (seq : List ℤ) (p q : ℕ) : Option RatOut :=
  if seq.length < p + q + 2 then none
  else
    match fit (ratM seq p q (ratFitPts seq p q)) (ratRhs seq (ratFitPts seq p q)) with
    | none => none
    | some csr =>
      if (match csr.2 with | some r => decide (tol5 < r) | none => false) then none
      else if csr.1.all isNearInt then
        if (ratQCoeffs (roundedCoeffs csr.1) p).all (· == 0) then none
        else if ratVerifyFrom (ratPCoeffs (roundedCoeffs csr.1) p)
            (ratQCoeffs (roundedCoeffs csr.1) p) p q 1 seq then
          some (.verified (ratPCoeffs (roundedCoeffs csr.1) p)
            (ratQCoeffs (roundedCoeffs csr.1) p) p q)
        else none
      else none

/-- The nested ascending search order: numerator degree `p = 0..m` outer,
denominator degree `q = 1..m` inner. -/
def ratPairs (m : ℕ) : List (ℕ × ℕ) :=
  ((List.range (m + 1)).map fun p => (List.range m).map fun t => (p, t + 1)).flatten

/-- The degree bound after the downward adjustment for short sequences:
`max_deg = (n - 2) // 2` (Python floor division) when `n < 2*max_deg + 2`. -/
def ratAdjDeg (seq : List ℤ) (maxDeg : ℤ) : ℤ :=
  if (seq.length : ℤ) < 2 * maxDeg + 2 then ((seq.length : ℤ) - 2).fdiv 2 else maxDeg

/-- `test_rational_conjecture`, parameterized by the least-squares routine.
The `np.int64` pre-check catches `OverflowError` and returns `failed`;
`max_deg : ℤ` because the Python argument may be any int (default 4). -/
def testRationalWith (fit : RatFit) (seq : List ℤ) (maxDeg : ℤ) : RatOut :=
  if seq.all int64Repr then
    if ratAdjDeg seq maxDeg < 0 then .failed
    else
      match firstSome (fun pq => ratStep fit seq pq.1 pq.2)
          (ratPairs (ratAdjDeg seq maxDeg).toNat) with
      | some r => r
      | none => .failed
  else .failed

/-- Transpose of a list-of-rows matrix (for the normal equations of the
least-squares model). -/
def transposeQ (m : List (List ℚ)) (cols : ℕ) : List (List ℚ) :=
  (List.range cols).map fun j => m.map fun row => row.getD j 0

/-- Exact-arithmetic model of `np.linalg.lstsq`: normal-equations solution
with the exact sum of squared residuals (reported only in the full-rank
overdetermined case, as NumPy does); a rank-deficient system is mapped to
`none` (skipped candidate). -/
def ratLstsqQ : RatFit := fun m b =>
  let cols := (m.headD []).length
  let mt := transposeQ m cols
  let n := mt.map fun row => (List.range cols).map fun k => dotSum row (mt.getD k [])
  let rhs := mt.map fun row => dotSum row b
  match solveCramer n rhs with
  | none => none
  | some cs =>
    let resid := (List.zipWith (fun row bv => (dotSum row cs - bv) ^ 2) m b).sum
    some (cs, if cols < m.length then some resid else none)

/-- `test_rational_conjecture` with the least-squares routine modelled
exactly (the `oeis_id` argument is logging-only and omitted). -/
def test_rational_conjecture (seq : List ℤ) (maxDeg : ℤ := 4) : RatOut :=
  testRationalWith ratLstsqQ seq maxDeg


/-! ## Inversion lemmas: what a `verified` outcome implies -/

theorem polyVerifyFrom_true {d : ℕ} {cs : List ℤ} :
    ∀ {l : List ℤ} {i : ℕ}, polyVerifyFrom d cs i l = true →
      ∀ j < l.length, polyEvalZ d cs ((i + j : ℕ) : ℤ) = l.getD j 0 := by
  intro l
  induction l with
  | nil => intro i _ j hj; cases hj
  | cons v rest ih =>
    intro i h j hj
    unfold polyVerifyFrom at h
    rw [Bool.and_eq_true] at h
    obtain ⟨h1, h2⟩ := h
    cases j with
    | zero => simpa using beq_iff_eq.mp h1
    | succ j' =>
      have h3 := ih h2 j' (Nat.lt_of_succ_lt_succ hj)
      have hidx : i + 1 + j' = i + (j' + 1) := by omega
      rw [hidx] at h3
      simpa using h3

theorem polyStep_some {fit : PolyFit} {seq : List ℤ} {m d : ℕ} {r : PolyOut}
    (h : polyStep fit seq m d = some r) :
    ∃ rcs, r = .verified rcs d ∧ polyVerifyFrom d rcs 1 seq = true := by
  unfold polyStep at h
  split at h
  · cases h
  · split at h
    · cases h
    · rename_i cs hfit
      split at h
      · split at h
        · rename_i hver
          exact ⟨roundedCoeffs cs, (Option.some.inj h).symm, hver⟩
        · cases h
      · cases h

theorem polyStep_deg {fit : PolyFit} {seq : List ℤ} {m d : ℕ} {r : PolyOut}
    (h : polyStep fit seq m d = some r) : polyDegOf r = d := by
  obtain ⟨rcs, rfl, -⟩ := polyStep_some h
  rfl

theorem testPolynomialWith_verified {fit : PolyFit} {seq : List ℤ}
    {rcs : List ℤ} {d : ℕ}
    (h : testPolynomialWith fit seq = .ok (.verified rcs d)) :
    firstSome (polyStep fit seq (fitLen seq)) degreeRange = some (.verified rcs d) := by
  unfold testPolynomialWith at h
  split at h
  · injection h with h
    exact PolyOut.noConfusion h
  · split at h
    · split at h
      · rename_i r hr
        injection h with h
        rw [hr, h]
      · injection h with h
        exact PolyOut.noConfusion h
    · cases h

theorem recVerifyAux_true {cs seq : List ℤ} :
    ∀ {fuel i : ℕ}, recVerifyAux cs seq i fuel = true →
      ∀ t < fuel, recPredict cs seq (i + t) = seq.getD (i + t) 0 := by
  intro fuel
  induction fuel with
  | zero => intro i _ t ht; cases ht
  | succ f ih =>
    intro i h t ht
    unfold recVerifyAux at h
    rw [Bool.and_eq_true] at h
    obtain ⟨h1, h2⟩ := h
    cases t with
    | zero => simpa using beq_iff_eq.mp h1
    | succ t' =>
      have h3 := ih h2 t' (Nat.lt_of_succ_lt_succ ht)
      have hidx : i + 1 + t' = i + (t' + 1) := by omega
      rw [hidx] at h3
      exact h3

theorem recVerify_true {cs seq : List ℤ} {k : ℕ} (h : recVerify cs seq k = true) :
    ∀ i, k ≤ i → i < seq.length → recPredict cs seq i = seq.getD i 0 := by
  intro i hk hi
  have := recVerifyAux_true h (i - k) (by omega)
  rwa [Nat.add_sub_cancel' hk] at this

theorem recStep_ok_some {solver : RecSolve} {seq : List ℤ} {k : ℕ} {r : RecOut}
    (h : recStep solver seq k = .ok (some r)) :
    ∃ rcs, r = .verified rcs k ∧ recVerify rcs seq k = true := by
  unfold recStep at h
  split at h
  · cases h
  · split at h
    · split at h
      · cases h
      · rename_i cs hfit
        split at h
        · split at h
          · rename_i hver
            injection h with h
            exact ⟨roundedCoeffs cs, (Option.some.inj h).symm, hver⟩
          · injection h with h; cases h
        · injection h with h; cases h
    · cases h

/-- The depth a recurrence outcome reports. -/
def recDepthOf : RecOut → ℕ
  | .failed => 0
  | .verified _ k => k

theorem recStep_depth {solver : RecSolve} {seq : List ℤ} {k : ℕ} {r : RecOut}
    (h : recStep solver seq k = .ok (some r)) : recDepthOf r = k := by
  obtain ⟨rcs, rfl, -⟩ := recStep_ok_some h
  rfl

theorem recSearch_verified_mem {solver : RecSolve} {seq : List ℤ}
    {rcs : List ℤ} {k : ℕ} :
    ∀ {l : List ℕ}, recSearch solver seq l = .ok (.verified rcs k) →
      ∃ a ∈ l, recStep solver seq a = .ok (some (.verified rcs k)) := by
  intro l
  induction l with
  | nil =>
    intro h
    unfold recSearch at h
    injection h with h
    exact absurd h (by intro hh; cases hh)
  | cons b t ih =>
    intro h
    unfold recSearch at h
    split at h
    · cases h
    · rename_i r0 hb
      injection h with h
      exact ⟨b, List.mem_cons_self b t, by rw [hb, h]⟩
    · rename_i hb
      obtain ⟨a, hat, ha⟩ := ih h
      exact ⟨a, List.mem_cons_of_mem b hat, ha⟩

theorem recSearch_earlier_none {solver : RecSolve} {seq : List ℤ}
    {rcs : List ℤ} {k : ℕ} :
    ∀ {l : List ℕ}, l.Pairwise (· < ·) →
      recSearch solver seq l = .ok (.verified rcs k) →
      ∀ a ∈ l, a < k → recStep solver seq a = .ok none := by
  intro l
  induction l with
  | nil => intro _ _ a ha; cases ha
  | cons b t ih =>
    intro hsort h a ha hak
    unfold recSearch at h
    split at h
    · cases h
    · rename_i r0 hb
      injection h with h
      subst h
      have : recDepthOf (RecOut.verified rcs k) = b := recStep_depth hb
      simp only [recDepthOf] at this
      subst this
      rcases List.mem_cons.mp ha with rfl | hat
      · exact absurd hak (Nat.lt_irrefl a)
      · exact absurd hak (Nat.lt_asymm ((List.pairwise_cons.mp hsort).1 a hat))
    · rename_i hb
      rcases List.mem_cons.mp ha with rfl | hat
      · exact hb
      · exact ih (List.pairwise_cons.mp hsort).2 h a hat hak

theorem ratVerifyFrom_true {pC qC : List ℤ} {p q : ℕ} :
    ∀ {l : List ℤ} {i : ℕ}, ratVerifyFrom pC qC p q i l = true →
      ∀ j < l.length, polyEvalPairs qC q ((i + j : ℕ) : ℚ) ≠ 0 ∧
        |polyEvalPairs pC p ((i + j : ℕ) : ℚ) / polyEvalPairs qC q ((i + j : ℕ) : ℚ) -
          (l.getD j 0 : ℚ)| ≤ tol9 := by
  intro l
  induction l with
  | nil => intro i _ j hj; cases hj
  | cons v rest ih =>
    intro i h j hj
    unfold ratVerifyFrom at h
    split at h
    · cases h
    · split at h
      · cases h
      · rename_i hq htol
        cases j with
        | zero =>
          constructor
          · simpa using hq
          · simpa using le_of_not_lt htol
        | succ j' =>
          have h3 := ih h j' (Nat.lt_of_succ_lt_succ hj)
          have hidx : i + 1 + j' = i + (j' + 1) := by omega
          rw [hidx] at h3
          simpa using h3

theorem ratStep_some {fit : RatFit} {seq : List ℤ} {p q : ℕ} {r : RatOut}
    (h : ratStep fit seq p q = some r) :
    ∃ pC qC, r = .verified pC qC p q ∧ ratVerifyFrom pC qC p q 1 seq = true := by
  unfold ratStep at h
  split at h
  · cases h
  · split at h
    · cases h
    · rename_i csr hfit
      split at h
      · cases h
      · split at h
        · split at h
          · cases h
          · split at h
            · rename_i hver
              exact ⟨ratPCoeffs (roundedCoeffs csr.1) p, ratQCoeffs (roundedCoeffs csr.1) p,
                (Option.some.inj h).symm, hver⟩
            · cases h
        · cases h

/-- The degree pair a rational outcome reports. -/
def ratDegOf : RatOut → ℕ × ℕ
  | .failed => (0, 0)
  | .verified _ _ p q => (p, q)

theorem ratStep_deg {fit : RatFit} {seq : List ℤ} {p q : ℕ} {r : RatOut}
    (h : ratStep fit seq p q = some r) : ratDegOf r = (p, q) := by
  obtain ⟨pC, qC, rfl, -⟩ := ratStep_some h
  rfl

/-- The strict lexicographic order of the nested `(p, q)` search. -/
def lexLt (a b : ℕ × ℕ) : Prop := a.1 < b.1 ∨ (a.1 = b.1 ∧ a.2 < b.2)

theorem lexLt_asymm : ∀ x y, lexLt x y → ¬ lexLt y x := by
  intro x y h1 h2
  rcases h1 with h1 | ⟨h1e, h1l⟩ <;> rcases h2 with h2 | ⟨h2e, h2l⟩ <;> omega

theorem ratPairs_pairwise (m : ℕ) : (ratPairs m).Pairwise lexLt := by
  unfold ratPairs
  rw [List.pairwise_flatten]
  refine ⟨?_, ?_⟩
  · intro l' hl'
    obtain ⟨p, _, rfl⟩ := List.mem_map.mp hl'
    rw [List.pairwise_map]
    refine List.Pairwise.imp ?_ (List.pairwise_lt_range m)
    intro a b hab
    exact Or.inr ⟨rfl, by omega⟩
  · rw [List.pairwise_map]
    refine List.Pairwise.imp ?_ (List.pairwise_lt_range (m + 1))
    intro a b hab x hx y hy
    obtain ⟨ta, -, rfl⟩ := List.mem_map.mp hx
    obtain ⟨tb, -, rfl⟩ := List.mem_map.mp hy
    exact Or.inl hab

theorem testRationalWith_verified {fit : RatFit} {seq : List ℤ} {maxDeg : ℤ}
    {pC qC : List ℤ} {p q : ℕ}
    (h : testRationalWith fit seq maxDeg = .verified pC qC p q) :
    firstSome (fun pq => ratStep fit seq pq.1 pq.2)
      (ratPairs (ratAdjDeg seq maxDeg).toNat) = some (.verified pC qC p q) := by
  unfold testRationalWith at h
  split at h
  · split at h
    · cases h
    · split at h
      · rename_i r hr
        rw [hr, h]
      · cases h
  · cases h

deriving instance DecidableEq for Except

set_option maxRecDepth 4000

/-! ## Claim theorems -/

/-- **C5**: on `a(n) = n²` for `n = 1..10` with the default bounds, the
polynomial tester returns a Verified result of degree 2 whose payload is the
coefficient list `[1, 0, 0]` (the structured content of the returned
`formula_latex`/`details`). -/
theorem claim_C5_polynomial_square :
    test_polynomial_conjecture [1, 4, 9, 16, 25, 36, 49, 64, 81, 100] =
      .ok (.verified [1, 0, 0] 2) := by
  with_unfolding_all decide

/-- **C6**: on the Fibonacci prefix with the default bounds, the linear
recurrence tester returns Verified at depth 2 with coefficients `[1, 1]`;
moreover the depth-1 candidate does fit its 1×1 window (the solver returns
`[1]`) but is rejected by the full-sequence verification, so the ascending
search settles on depth 2. -/
theorem claim_C6_fibonacci_recurrence :
    test_linear_recurrence_conjecture [1, 1, 2, 3, 5, 8, 13, 21, 34, 55] =
        .ok (.verified [1, 1] 2) ∧
      recSolveQ (recMatrix [1, 1, 2, 3, 5, 8, 13, 21, 34, 55] 1)
          (recRhs [1, 1, 2, 3, 5, 8, 13, 21, 34, 55] 1) = some [1] ∧
      recStep recSolveQ [1, 1, 2, 3, 5, 8, 13, 21, 34, 55] 1 = .ok none := by
  refine ⟨?_, ?_, ?_⟩ <;> with_unfolding_all decide

/-- **C3**: the exponential tester (modelled from the spec, §4.3) solves the
3-equation system `A·Bⁱ + C = a(i)` on the first three terms of
`[2,4,8,16,32,64]` to `(A,B,C) = (1,2,0)` and returns Verified with those
coefficients. -/
theorem claim_C3_exponential_powers_of_two :
    solveExpSystem 2 4 8 = some (1, 2, 0) ∧
      test_exponential_conjecture [2, 4, 8, 16, 32, 64] = .verified 1 2 0 := by
  refine ⟨?_, ?_⟩ <;> with_unfolding_all decide

/-- **C2** (code bug): on a sequence whose values exceed the fitting
routine's native numeric range, the polynomial tester does *not* skip the
fit and return Failed — the array conversion error escapes (only
`LinAlgError` is caught in the source), modelled as `.error`; only the
rational tester has the `np.int64` pre-check and degrades to `failed`. -/
theorem claim_C2_overflow_crashes_polynomial_tester :
    test_polynomial_conjecture [10 ^ 400, 10 ^ 400, 10 ^ 400] =
        .error "OverflowError: int too large to convert" ∧
      test_rational_conjecture [10 ^ 400, 10 ^ 400, 10 ^ 400] 4 = .failed := by
  refine ⟨?_, ?_⟩ <;> with_unfolding_all decide

/-- **C4**: on any sequence of length 1, all four testers return Failed
(never an exception), for every fitting/solving routine and every rational
degree bound. -/
theorem claim_C4_length_one_fails_everywhere (x : ℤ) (fitP : PolyFit)
    (solver : RecSolve) (fitR : RatFit) (mdeg : ℤ) :
    testPolynomialWith fitP [x] = .ok .failed ∧
      testRecurrenceWith solver [x] = .ok .failed ∧
      test_exponential_conjecture [x] = .failed ∧
      testRationalWith fitR [x] mdeg = .failed := by
  refine ⟨by with_unfolding_all rfl, rfl, rfl, ?_⟩
  unfold testRationalWith
  split
  · unfold ratAdjDeg
    simp only [List.length_singleton, Nat.cast_one]
    by_cases hm : (1 : ℤ) < 2 * mdeg + 2
    · rw [if_pos hm]
      have hd : ((1 : ℤ) - 2).fdiv 2 = -1 := by decide
      rw [hd, if_pos (by decide : (-1 : ℤ) < 0)]
    · rw [if_neg hm, if_pos (show mdeg < 0 by omega)]
  · rfl

/-- **C9**: for every sequence of length at most 3 and every `max_deg`
argument, the rational tester returns Failed without invoking the fitting
routine (the result is independent of `fit`): the adjusted bound
`(n - 2) // 2` is at most 0, making the inner `q`-loop empty, or negative,
failing immediately. -/
theorem claim_C9_rational_short_sequences_fail (fit : RatFit) (seq : List ℤ)
    (mdeg : ℤ) (hlen : seq.length ≤ 3) :
    testRationalWith fit seq mdeg = .failed := by
  unfold testRationalWith
  split
  · have hadj : ratAdjDeg seq mdeg ≤ 0 := by
      unfold ratAdjDeg
      split
      · interval_cases h : seq.length <;> simp_all
      · omega
    split
    · rfl
    · rename_i hneg
      have h0 : ratAdjDeg seq mdeg = 0 := by omega
      rw [h0]
      rfl
  · rfl

/-- **C1**: the full-sequence exactness invariant.  Whatever the fitting
routine returns, a Verified result's rounded integer coefficients reproduce
the input exactly at every index: the polynomial at every index `1..n`; the
recurrence at every index where it applies (`k+1..n`, i.e. every 0-based
`i ≥ k`, which the verification loop `range(k, len)` checks in full,
including the fitted window); the rational function within absolute
tolerance `1e-9` with a nonzero denominator at every index `1..n`.  Since
the theorems hold for every fitting routine, no Verified result can arise
from a fit-subset match alone. -/
theorem claim_C1_exactness_invariant :
    (∀ (fit : PolyFit) (seq cs : List ℤ) (d : ℕ),
      testPolynomialWith fit seq = .ok (.verified cs d) →
      ∀ j < seq.length, polyEvalZ d cs ((1 + j : ℕ) : ℤ) = seq.getD j 0) ∧
    (∀ (solver : RecSolve) (seq cs : List ℤ) (k : ℕ),
      testRecurrenceWith solver seq = .ok (.verified cs k) →
      ∀ i, k ≤ i → i < seq.length → recPredict cs seq i = seq.getD i 0) ∧
    (∀ (fit : RatFit) (seq : List ℤ) (mdeg : ℤ) (pC qC : List ℤ) (p q : ℕ),
      testRationalWith fit seq mdeg = .verified pC qC p q →
      ∀ j < seq.length, polyEvalPairs qC q ((1 + j : ℕ) : ℚ) ≠ 0 ∧
        |polyEvalPairs pC p ((1 + j : ℕ) : ℚ) / polyEvalPairs qC q ((1 + j : ℕ) : ℚ) -
          (seq.getD j 0 : ℚ)| ≤ tol9) := by
  refine ⟨?_, ?_, ?_⟩
  · intro fit seq cs d h j hj
    obtain ⟨d', -, hstep⟩ := firstSome_eq_some (testPolynomialWith_verified h)
    obtain ⟨rcs, heq, hver⟩ := polyStep_some hstep
    obtain ⟨rfl, rfl⟩ : cs = rcs ∧ d = d' := by
      cases heq; exact ⟨rfl, rfl⟩
    exact polyVerifyFrom_true hver j hj
  · intro solver seq cs k h i hk hi
    obtain ⟨a, -, hstep⟩ := recSearch_verified_mem h
    obtain ⟨rcs, heq, hver⟩ := recStep_ok_some hstep
    obtain ⟨rfl, rfl⟩ : cs = rcs ∧ k = a := by
      cases heq; exact ⟨rfl, rfl⟩
    exact recVerify_true hver i hk hi
  · intro fit seq mdeg pC qC p q h j hj
    obtain ⟨pq, -, hstep⟩ := firstSome_eq_some (testRationalWith_verified h)
    obtain ⟨pC', qC', heq, hver⟩ := ratStep_some hstep
    obtain ⟨rfl, rfl, rfl, rfl⟩ : pC = pC' ∧ qC = qC' ∧ p = pq.1 ∧ q = pq.2 := by
      cases heq; exact ⟨rfl, rfl, rfl, rfl⟩
    exact ratVerifyFrom_true hver j hj

/-- A fitting routine that always returns the linear coefficients `[1, 0]`,
used to exhibit a concrete Verified polynomial run. -/
def constLinFit : PolyFit := fun _ _ _ => some [1, 0]

/-- A window solver that always returns `[1]`, used to exhibit a concrete
Verified depth-1 recurrence run. -/
def constOneSolve : RecSolve := fun _ _ => some [1]

/-- A least-squares routine that always returns `([1, 0], no residual)`,
used to exhibit a concrete Verified rational run at `(p, q) = (0, 1)`. -/
def constRatFit : RatFit := fun _ _ => some ([1, 0], none)

/-- Witness for C1: concrete Verified runs of the three testers, with the
invariant read off at index 1. -/
theorem claim_C1_exactness_invariant_witness :
    (polyEvalZ 1 [1, 0] ((1 + 0 : ℕ) : ℤ) = [1, 2, 3].getD 0 0) ∧
      (recPredict [1] [1, 1, 1, 1] 1 = [1, 1, 1, 1].getD 1 0) ∧
      (polyEvalPairs [0, 1] 1 ((1 + 0 : ℕ) : ℚ) ≠ 0 ∧
        |polyEvalPairs [1] 0 ((1 + 0 : ℕ) : ℚ) / polyEvalPairs [0, 1] 1 ((1 + 0 : ℕ) : ℚ) -
          (([1, 1, 1, 1, 1, 1] : List ℤ).getD 0 0 : ℚ)| ≤ tol9) := by
  refine ⟨?_, ?_, ?_⟩
  · exact claim_C1_exactness_invariant.1 constLinFit [1, 2, 3] [1, 0] 1
      (by with_unfolding_all decide) 0 (by decide)
  · exact claim_C1_exactness_invariant.2.1 constOneSolve [1, 1, 1, 1] [1] 1
      (by with_unfolding_all decide) 1 (by decide) (by decide)
  · exact claim_C1_exactness_invariant.2.2 constRatFit [1, 1, 1, 1, 1, 1] 4 [1] [0, 1] 0 1
      (by with_unfolding_all decide) 0 (by decide)

/-- **C7**: minimality of the returned complexity.  Whatever the fitting
routine returns, when a tester reports Verified at degree `d` (depth `k`,
degree pair `(p, q)`), every candidate earlier in the ascending search range
was rejected by the fit–integrality–verification pipeline (its step yields
no result), so a more complex formula is never reported when a simpler one
also passes. -/
theorem claim_C7_ascending_search_minimality :
    (∀ (fit : PolyFit) (seq cs : List ℤ) (d : ℕ),
      testPolynomialWith fit seq = .ok (.verified cs d) →
      ∀ d' ∈ degreeRange, d' < d → polyStep fit seq (fitLen seq) d' = none) ∧
    (∀ (solver : RecSolve) (seq cs : List ℤ) (k : ℕ),
      testRecurrenceWith solver seq = .ok (.verified cs k) →
      ∀ k' ∈ depthRange, k' < k → recStep solver seq k' = .ok none) ∧
    (∀ (fit : RatFit) (seq : List ℤ) (mdeg : ℤ) (pC qC : List ℤ) (p q : ℕ),
      testRationalWith fit seq mdeg = .verified pC qC p q →
      ∀ pq ∈ ratPairs (ratAdjDeg seq mdeg).toNat, lexLt pq (p, q) →
        ratStep fit seq pq.1 pq.2 = none) := by
  refine ⟨?_, ?_, ?_⟩
  · intro fit seq cs d h d' hmem hlt
    have := firstSome_earlier_none polyDegOf (fun x y => Nat.lt_asymm)
      (fun a r' => polyStep_deg) (by decide : degreeRange.Pairwise (· < ·))
      (testPolynomialWith_verified h)
    exact this d' hmem hlt
  · intro solver seq cs k h k' hmem hlt
    exact recSearch_earlier_none (by decide : depthRange.Pairwise (· < ·)) h k' hmem hlt
  · intro fit seq mdeg pC qC p q h pq hmem hlt
    have := firstSome_earlier_none ratDegOf lexLt_asymm
      (fun a r' hr => by rw [ratStep_deg hr])
      (ratPairs_pairwise (ratAdjDeg seq mdeg).toNat)
      (testRationalWith_verified h)
    exact this pq hmem hlt

/-- A least-squares routine keyed on the column count of the system: two
unknowns get the non-integer `[1/2]` (rejected), three unknowns get
`[1, 0, 0]` (accepted); it makes a rational run verify at `(0, 2)` after
rejecting `(0, 1)`. -/
def colsRatFit : RatFit := fun m _ =>
  if (m.headD []).length == 3 then some ([1, 0, 0], none) else some ([(1 : ℚ) / 2], none)

/-- Witness for C7: concrete Verified runs at degree 2 / depth 2 / pair
`(0, 2)`, with the immediately preceding candidate rejected. -/
theorem claim_C7_ascending_search_minimality_witness :
    polyStep polyfitQ [1, 4, 9, 16, 25, 36, 49, 64, 81, 100]
        (fitLen [1, 4, 9, 16, 25, 36, 49, 64, 81, 100]) 1 = none ∧
      recStep recSolveQ [1, 1, 2, 3, 5, 8, 13, 21, 34, 55] 1 = .ok none ∧
      ratStep colsRatFit [1, 1, 1, 1, 1, 1] 0 1 = none := by
  refine ⟨?_, ?_, ?_⟩
  · exact claim_C7_ascending_search_minimality.1 polyfitQ
      [1, 4, 9, 16, 25, 36, 49, 64, 81, 100] [1, 0, 0] 2
      (by with_unfolding_all decide) 1 (by decide) (by decide)
  · exact claim_C7_ascending_search_minimality.2.1 recSolveQ
      [1, 1, 2, 3, 5, 8, 13, 21, 34, 55] [1, 1] 2
      (by with_unfolding_all decide) 1 (by decide) (by decide)
  · exact claim_C7_ascending_search_minimality.2.2 colsRatFit
      [1, 1, 1, 1, 1, 1] 4 [1] [0, 0, 1] 0 2
      (by with_unfolding_all decide) (0, 1) (by with_unfolding_all decide)
      (Or.inr ⟨rfl, Nat.one_lt_two⟩)

/-- **C8**: rejection gates of the rational tester.  For any `(p, q)`
candidate, if the least-squares routine reports a residual exceeding `1e-5`,
or any fitted coefficient is not within `1e-9` of an integer, the candidate
step yields nothing, and the tester can never return a Verified result with
that degree pair. -/
theorem claim_C8_rational_rejection_gates (fit : RatFit) (seq : List ℤ)
    (mdeg : ℤ) (p q : ℕ) (cs : List ℚ) (rres : Option ℚ) (pC qC : List ℤ)
    (hfit : fit (ratM seq p q (ratFitPts seq p q)) (ratRhs seq (ratFitPts seq p q)) =
      some (cs, rres))
    (hbad : (∃ r, rres = some r ∧ tol5 < r) ∨
      (∃ c ∈ cs, ¬ |c - (round c : ℚ)| < tol9)) :
    ratStep fit seq p q = none ∧
      testRationalWith fit seq mdeg ≠ .verified pC qC p q := by
  have hstep : ratStep fit seq p q = none := by
    unfold ratStep
    split
    · rfl
    · simp only [hfit]
      rcases hbad with ⟨r, hr, hrt⟩ | ⟨c, hc, hct⟩
      · rw [hr]
        rw [if_pos (decide_eq_true hrt)]
      · split
        · rfl
        · rw [if_neg]
          intro hall
          rw [List.all_eq_true] at hall
          have := hall c hc
          rw [isNearInt, decide_eq_true_eq] at this
          exact hct this
  refine ⟨hstep, ?_⟩
  intro h
  obtain ⟨pq, -, hs⟩ := firstSome_eq_some (testRationalWith_verified h)
  obtain ⟨p1, q1⟩ := pq
  have hdeg := ratStep_deg hs
  simp only [ratDegOf] at hdeg
  cases hdeg
  rw [hstep] at hs
  cases hs

/-- A least-squares routine that always reports the non-integer coefficient
`1/2` with no residual. -/
def halfRatFit : RatFit := fun _ _ => some ([(1 : ℚ) / 2], none)

/-- Witness for C8: on `[1, 2, 3, 4]` with the all-halves routine, the
`(0, 1)` candidate is rejected and the tester does not verify at `(0, 1)`. -/
theorem claim_C8_rational_rejection_gates_witness :
    ratStep halfRatFit [1, 2, 3, 4] 0 1 = none ∧
      testRationalWith halfRatFit [1, 2, 3, 4] 4 ≠ .verified [] [] 0 1 := by
  exact claim_C8_rational_rejection_gates halfRatFit [1, 2, 3, 4] 4 0 1
    [(1 : ℚ) / 2] none [] [] (by with_unfolding_all decide)
    (Or.inr ⟨(1 : ℚ) / 2, List.mem_singleton.mpr rfl, by with_unfolding_all decide⟩)

/-! ## The degree-1 least-squares fit of a constant sequence, in the exact model -/

theorem range_one_eq : List.range 1 = [0] := rfl

theorem range_two_eq : List.range 2 = [0, 1] := rfl

theorem xFit_succ (m : ℕ) : xFit (m + 1) = xFit m ++ [((m + 1 : ℕ) : ℚ)] := by
  unfold xFit
  rw [List.range_succ, List.map_append]
  rfl

theorem dotSum_colPow (xs : List ℚ) (e1 e2 : ℕ) :
    dotSum (colPow xs e1) (colPow xs e2) = (xs.map fun x => x ^ (e1 + e2)).sum := by
  induction xs with
  | nil => rfl
  | cons x t ih =>
    simp only [dotSum, colPow, List.map_cons, List.zipWith_cons_cons, List.sum_cons] at *
    rw [ih, pow_add]

theorem dotSum_colPow_replicate (xs : List ℚ) (e : ℕ) (y : ℚ) :
    dotSum (colPow xs e) (List.replicate xs.length y) =
      (xs.map fun x => x ^ e).sum * y := by
  induction xs with
  | nil => simp [dotSum, colPow]
  | cons x t ih =>
    simp only [dotSum, colPow, List.map_cons, List.length_cons, List.replicate_succ,
      List.zipWith_cons_cons, List.sum_cons] at *
    rw [ih]
    ring

theorem sum_pow_zero (m : ℕ) : ((xFit m).map fun x => x ^ 0).sum = (m : ℚ) := by
  induction m with
  | zero => rfl
  | succ k ih =>
    rw [xFit_succ, List.map_append, List.sum_append, ih]
    simp only [List.map_cons, List.map_nil, List.sum_cons, List.sum_nil]
    push_cast
    ring

theorem sum_pow_one (m : ℕ) :
    ((xFit m).map fun x => x ^ 1).sum = (m : ℚ) * (m + 1) / 2 := by
  induction m with
  | zero => norm_num [xFit]
  | succ k ih =>
    rw [xFit_succ, List.map_append, List.sum_append, ih]
    simp only [List.map_cons, List.map_nil, List.sum_cons, List.sum_nil]
    push_cast
    ring

theorem sum_pow_two (m : ℕ) :
    ((xFit m).map fun x => x ^ 2).sum = (m : ℚ) * (m + 1) * (2 * m + 1) / 6 := by
  induction m with
  | zero => norm_num [xFit]
  | succ k ih =>
    rw [xFit_succ, List.map_append, List.sum_append, ih]
    simp only [List.map_cons, List.map_nil, List.sum_cons, List.sum_nil]
    push_cast
    ring

theorem det_two (a b c d : ℚ) : det [[a, b], [c, d]] = a * d - b * c := by
  simp [det, detAux, range_two_eq, range_one_eq]
  ring

theorem normalMatrix_one (xs : List ℚ) :
    normalMatrix xs 1 =
      [[dotSum (colPow xs 1) (colPow xs 1), dotSum (colPow xs 1) (colPow xs 0)],
        [dotSum (colPow xs 0) (colPow xs 1), dotSum (colPow xs 0) (colPow xs 0)]] := by
  unfold normalMatrix
  rw [range_two_eq]
  rfl

theorem normalRhs_one (xs ys : List ℚ) :
    normalRhs xs ys 1 = [dotSum (colPow xs 1) ys, dotSum (colPow xs 0) ys] := by
  unfold normalRhs
  rw [range_two_eq]
  rfl

theorem solveCramer_two {a b c d : ℚ} (e f : ℚ) (h : det [[a, b], [c, d]] ≠ 0) :
    solveCramer [[a, b], [c, d]] [e, f] =
      some [det [[e, b], [f, d]] / det [[a, b], [c, d]],
        det [[a, e], [c, f]] / det [[a, b], [c, d]]] := by
  unfold solveCramer
  rw [if_neg h]
  rfl

theorem polyfitQ_const (m : ℕ) (hm : 2 ≤ m) (y : ℚ) :
    polyfitQ (xFit m) (List.replicate m y) 1 = some [0, y] := by
  have hlen : List.replicate m y = List.replicate (xFit m).length y := by
    simp [xFit]
  unfold polyfitQ
  rw [normalMatrix_one, normalRhs_one, hlen, dotSum_colPow_replicate,
    dotSum_colPow_replicate, dotSum_colPow, dotSum_colPow, dotSum_colPow, dotSum_colPow]
  simp only [Nat.reduceAdd, Nat.add_zero, Nat.zero_add]
  set A2 := ((xFit m).map fun x => x ^ 2).sum with hA2
  set A1 := ((xFit m).map fun x => x ^ 1).sum with hA1
  set A0 := ((xFit m).map fun x => x ^ 0).sum with hA0
  have hm' : (2 : ℚ) ≤ (m : ℚ) := by exact_mod_cast hm
  have hDval : det [[A2, A1], [A1, A0]] =
      (m : ℚ) * m * ((m : ℚ) + 1) * ((m : ℚ) - 1) / 12 := by
    rw [det_two, hA2, hA1, hA0, sum_pow_two, sum_pow_one, sum_pow_zero]
    ring
  have hDne : det [[A2, A1], [A1, A0]] ≠ 0 := by
    rw [hDval]
    apply ne_of_gt
    apply div_pos
    · have h1 : (0 : ℚ) < (m : ℚ) := by linarith
      have h2 : (0 : ℚ) < (m : ℚ) + 1 := by linarith
      have h3 : (0 : ℚ) < (m : ℚ) - 1 := by linarith
      exact mul_pos (mul_pos (mul_pos h1 h1) h2) h3
    · norm_num
  rw [solveCramer_two _ _ hDne]
  have hz : det [[A1 * y, A1], [A0 * y, A0]] = 0 := by rw [det_two]; ring
  have hc : det [[A2, A1 * y], [A1, A0 * y]] = y * det [[A2, A1], [A1, A0]] := by
    rw [det_two, det_two]
    ring
  rw [hz, hc, zero_div, mul_div_assoc, div_self hDne, mul_one]

theorem polyEvalZ_zero_c (c x : ℤ) : polyEvalZ 1 [0, c] x = c := by
  have he : List.enum [0, c] = [(0, (0 : ℤ)), (1, c)] := rfl
  simp [polyEvalZ, he]

theorem polyVerify_const (c : ℤ) : ∀ k i, polyVerifyFrom 1 [0, c] i (List.replicate k c) = true := by
  intro k
  induction k with
  | zero => intro i; rfl
  | succ t ih =>
    intro i
    rw [List.replicate_succ]
    unfold polyVerifyFrom
    rw [Bool.and_eq_true]
    exact ⟨by rw [polyEvalZ_zero_c]; exact beq_self_eq_true c, ih (i + 1)⟩

theorem yFit_replicate (n m : ℕ) (hmn : m ≤ n) (c : ℤ) :
    yFit (List.replicate n c) m = List.replicate m (c : ℚ) := by
  unfold yFit
  rw [List.take_replicate, min_eq_left hmn, List.map_replicate]

/-- Witness for C9: the length-3 sequence `[1, 2, 3]` fails with the default
bound, whatever the least-squares routine. -/
theorem claim_C9_rational_short_sequences_fail_witness :
    testRationalWith constRatFit [1, 2, 3] 4 = .failed :=
  claim_C9_rational_short_sequences_fail constRatFit [1, 2, 3] 4 (by decide)
